import Mathlib

/-!
Verification of the retrieval subsystem of a browser-resident RAG chat client
(`rag-engine.js` / `cache-manager.js` / `app.js`).

Strings are modelled as `List Char`; JavaScript string and array operations
(`split`, `slice` with a negative argument, `trim`, regexp replacement,
stable `Array.prototype.sort`) are translated one-for-one into executable
Lean functions.  Floating-point arithmetic of the scorer is modelled over `ℝ`
with `Real.log` and `Real.sqrt` standing for `Math.log` / `Math.sqrt`.
-/

namespace RAG

/-- Characters matched by the JavaScript regexp class `\s` (ASCII range). -/
def isSpaceJS (c : Char) : Bool :=
  c == ' ' || c == '\t' || c == '\n' || c == '\x0d' || c == '\x0b' || c == '\x0c'

/-- Characters matched by the JavaScript regexp class `\w`. -/
def isWordCharJS (c : Char) : Bool :=
  (c ≥ 'a' && c ≤ 'z') || (c ≥ 'A' && c ≤ 'Z') || (c ≥ '0' && c ≤ '9') || c == '_'

/-- Lower-casing followed by `.replace(/[^\w\s]/g, ' ')`: every character that
is neither a word character nor whitespace becomes a space. -/
def sanitize (text : List Char) : List Char :=
  (text.map Char.toLower).map (fun c => if isWordCharJS c || isSpaceJS c then c else ' ')

/-- Worker for `String.prototype.split(/\s+/)`.  `inRun` records whether the
previous character belonged to a whitespace run; the accumulator holds the
current segment reversed.  JavaScript keeps the (possibly empty) segment
before the first separator run and after the last one. -/
def splitWsGo : List Char → List Char → Bool → List (List Char)
  | [], acc, _ => [acc.reverse]
  | c :: rest, acc, inRun =>
    if isSpaceJS c then
      if inRun then splitWsGo rest acc true
      else acc.reverse :: splitWsGo rest [] true
    else splitWsGo rest (c :: acc) false

/-- JavaScript `text.split(/\s+/)`. -/
def splitWsJS (l : List Char) : List (List Char) :=
  splitWsGo l [] false

/-- Worker for splitting into maximal non-whitespace runs, producing no empty
segments (the usual reading of "split on runs of whitespace"). -/
def wordsAux : List Char → List Char → List (List Char)
  | [], acc => if acc = [] then [] else [acc.reverse]
  | c :: rest, acc =>
    if isSpaceJS c then
      if acc = [] then wordsAux rest [] else acc.reverse :: wordsAux rest []
    else wordsAux rest (c :: acc)

/-- Split a string on runs of whitespace, dropping empty segments. -/
def wordsSplit (l : List Char) : List (List Char) :=
  wordsAux l []

/-- Stop-word set from `isStopWord` in rag-engine.js. -/
def stopWords : List (List Char) :=
  ["the", "is", "at", "which", "on", "a", "an", "and", "or", "but",
   "in", "with", "to", "for", "of", "as", "by", "that", "this",
   "it", "from", "be", "are", "was", "were", "been", "have", "has",
   "had", "do", "does", "did", "will", "would", "could", "should"].map String.toList

/-- Membership test in the stop-word set (`isStopWord` in rag-engine.js). -/
def isStopWord (w : List Char) : Bool :=
  stopWords.contains w

/-- Tokenizer from rag-engine.js: lower-case, replace punctuation by spaces,
split on `/\s+/`, keep tokens of length above two, drop stop words. -/
def tokenize (text : List Char) : List (List Char) :=
  (((splitWsJS (sanitize text)).filter (fun t => t.length > 2)).filter
    (fun t => !(isStopWord t)))

/-- Modelled from the spec: the reference tokenizer pipeline of section 4.1 —
lower-case, replace every character that is not a word character or
whitespace with a space, split on runs of whitespace, drop tokens of length
at most two, then drop stop words. -/
def tokenizeSpec (text : List Char) : List (List Char) :=
  (((wordsSplit (sanitize text)).filter (fun t => t.length > 2)).filter
    (fun t => !(isStopWord t)))

theorem filter_nonempty_splitWsGo (cs : List Char) :
    ∀ (acc : List Char) (inRun : Bool), (inRun = true → acc = []) →
      (splitWsGo cs acc inRun).filter (fun t => decide (t ≠ [])) = wordsAux cs acc := by
  induction cs with
  | nil =>
    intro acc inRun _
    rcases acc with _ | ⟨a, as⟩ <;> simp [splitWsGo, wordsAux]
  | cons c rest ih =>
    intro acc inRun hinv
    by_cases hc : isSpaceJS c = true
    · cases inRun with
      | true =>
        have hacc : acc = [] := hinv rfl
        subst hacc
        simp only [splitWsGo, wordsAux, hc, if_true]
        exact ih [] true (fun _ => rfl)
      | false =>
        rcases acc with _ | ⟨a, as⟩
        · simpa [splitWsGo, wordsAux, hc] using ih [] true (fun _ => rfl)
        · simp only [splitWsGo, wordsAux, hc, if_true, Bool.false_eq_true, if_false,
            List.filter_cons]
          rw [if_pos (by simp), ih [] true (fun _ => rfl)]
          simp
    · rcases inRun with _ | _ <;>
      · simp only [splitWsGo, wordsAux, hc, if_false]
        exact ih (c :: acc) false (by simp)

theorem filter_nonempty_splitWsJS (l : List Char) :
    (splitWsJS l).filter (fun t => decide (t ≠ [])) = wordsSplit l :=
  filter_nonempty_splitWsGo l [] false (by simp)

theorem filter_len_splitWsJS (l : List Char) :
    (splitWsJS l).filter (fun t => t.length > 2)
      = (wordsSplit l).filter (fun t => t.length > 2) := by
  rw [← filter_nonempty_splitWsJS, List.filter_filter]
  apply List.filter_congr
  intro t _
  cases t with
  | nil => simp
  | cons a as => simp

/-- Prepend a character to the first segment of a segment list. -/
def consHead (c : Char) : List (List Char) → List (List Char)
  | [] => [[c]]
  | s :: ss => (c :: s) :: ss

/-- JavaScript `String.prototype.split(sep)` for a one-character separator:
every segment is kept, including empty ones at either end. -/
def splitOnChar (sep : Char) : List Char → List (List Char)
  | [] => [[]]
  | c :: rest =>
    if c = sep then [] :: splitOnChar sep rest
    else consHead c (splitOnChar sep rest)

/-- JavaScript `Array.prototype.join(sep)` for a one-character separator. -/
def joinWith (sep : Char) : List (List Char) → List Char
  | [] => []
  | [x] => x
  | x :: y :: rest => x ++ sep :: joinWith sep (y :: rest)

/-- JavaScript `String.prototype.trim()`: strip whitespace from both ends. -/
def trimChars (l : List Char) : List Char :=
  ((l.dropWhile isSpaceJS).reverse.dropWhile isSpaceJS).reverse

/-- Chunk record as built by `createChunk` in rag-engine.js (the creation
timestamp, a wall-clock side effect, is not modelled). -/
structure Chunk where
  id : List Char
  docId : List Char
  docName : List Char
  content : List Char
  index : Nat
  tokens : List (List Char)
deriving DecidableEq

/-- Constructor `createChunk(content, docId, fileName, index)`: the stored
content is trimmed, the token sequence is computed from the untrimmed text. -/
def createChunk (content docId fileName : List Char) (index : Nat) : Chunk :=
  { id := docId ++ "_chunk_".toList ++ (toString index).toList
    docId := docId
    docName := fileName
    content := trimChars content
    index := index
    tokens := tokenize content }

/-- JavaScript `words.slice(-k)` where `k` is a non-negative integer: for
`k = 0` the argument is `-0`, which JavaScript treats as `0`, so the WHOLE
array is returned; for `k > 0` the last `k` elements (all of them when
`k ≥ words.length`). -/
def jsSliceNeg (words : List (List Char)) (k : Nat) : List (List Char) :=
  if k = 0 then words else words.drop (words.length - k)

/-- Modelled from the spec: keep the last `k` words — for `k = 0` this keeps
nothing.  Used only to state the claim about the overlap carry-over. -/
def lastWords (words : List (List Char)) (k : Nat) : List (List Char) :=
  words.drop (words.length - k)

/-- Overlap carry-over seed of a freshly closed buffer: split on single
spaces, apply `slice(-floor(chunkOverlap / 5))`, join with single spaces. -/
def overlapSeed (chunkOverlap : Nat) (buf : List Char) : List Char :=
  joinWith ' ' (jsSliceNeg (splitOnChar ' ' buf) (chunkOverlap / 5))

/-- Accumulation loop of `chunkDocument` over the lines of the input: `buf`
is `currentChunk` and `i` is `chunkIndex`. -/
def chunkLoop (chunkSize chunkOverlap : Nat) (docId fileName : List Char) :
    List (List Char) → List Char → Nat → List Chunk
  | [], buf, i => if 0 < buf.length then [createChunk buf docId fileName i] else []
  | line :: rest, buf, i =>
    if buf.length + line.length > chunkSize ∧ 0 < buf.length then
      createChunk buf docId fileName i ::
        chunkLoop chunkSize chunkOverlap docId fileName rest
          (overlapSeed chunkOverlap buf ++ '\n' :: line) (i + 1)
    else
      chunkLoop chunkSize chunkOverlap docId fileName rest
        (buf ++ (if 0 < buf.length then '\n' :: line else line)) i

/-- Chunker `chunkDocument(content, docId, fileName)` from rag-engine.js,
reading `chunkSize` and `chunkOverlap` from the current configuration. -/
def chunkDocument (chunkSize chunkOverlap : Nat) (content docId fileName : List Char) :
    List Chunk :=
  chunkLoop chunkSize chunkOverlap docId fileName (splitOnChar '\n' content) [] 0

/-- Loop state of the fold-style reference chunker: closed chunks, the
running buffer and the next ordinal. -/
structure ChunkAcc where
  done : List Chunk
  buf : List Char
  idx : Nat

/-- One line step of the reference chunker, parameterised by the carry-over
rule applied to a closed buffer. -/
def chunkStep (carry : List Char → List Char) (chunkSize : Nat)
    (docId fileName : List Char) (a : ChunkAcc) (line : List Char) : ChunkAcc :=
  if a.buf.length + line.length > chunkSize ∧ 0 < a.buf.length then
    { done := a.done ++ [createChunk a.buf docId fileName a.idx]
      buf := carry a.buf ++ '\n' :: line
      idx := a.idx + 1 }
  else
    { a with buf := a.buf ++ (if 0 < a.buf.length then '\n' :: line else line) }

/-- Close the final buffer of the reference chunker when it is non-empty. -/
def chunkFinalize (docId fileName : List Char) (a : ChunkAcc) : List Chunk :=
  a.done ++ (if 0 < a.buf.length then [createChunk a.buf docId fileName a.idx] else [])

/-- Fold-style reference chunker: fold the step over the lines, then close a
non-empty final buffer. -/
def chunkFold (carry : List Char → List Char) (chunkSize : Nat)
    (content docId fileName : List Char) : List Chunk :=
  chunkFinalize docId fileName
    ((splitOnChar '\n' content).foldl (chunkStep carry chunkSize docId fileName) ⟨[], [], 0⟩)

/-- Modelled from the amended spec sentence: same loop, with the carry-over
being the whole closed buffer when `floor(chunkOverlap / 5) = 0` (the
JavaScript `slice(-0)` behaviour) and the last `floor(chunkOverlap / 5)`
words joined with spaces otherwise. -/
def chunkDocumentSpec (chunkSize chunkOverlap : Nat)
    (content docId fileName : List Char) : List Chunk :=
  chunkFold
    (fun buf => joinWith ' ' (jsSliceNeg (splitOnChar ' ' buf) (chunkOverlap / 5)))
    chunkSize content docId fileName

/-- Modelled from the spec: the claimed loop, whose carry-over is always the
last `floor(chunkOverlap / 5)` words of the closed buffer joined with
spaces — in particular nothing when that count is zero. -/
def chunkDocumentClaim (chunkSize chunkOverlap : Nat)
    (content docId fileName : List Char) : List Chunk :=
  chunkFold
    (fun buf => joinWith ' ' (lastWords (splitOnChar ' ' buf) (chunkOverlap / 5)))
    chunkSize content docId fileName

theorem chunkLoop_eq_fold (carry : List Char → List Char) (chunkSize chunkOverlap : Nat)
    (docId fileName : List Char)
    (hcarry : ∀ buf, carry buf = overlapSeed chunkOverlap buf) :
    ∀ (lines : List (List Char)) (a : ChunkAcc),
      chunkFinalize docId fileName
          (lines.foldl (chunkStep carry chunkSize docId fileName) a)
        = a.done ++ chunkLoop chunkSize chunkOverlap docId fileName lines a.buf a.idx := by
  intro lines
  induction lines with
  | nil => intro a; simp [chunkLoop, chunkFinalize]
  | cons line rest ih =>
    intro a
    simp only [List.foldl_cons, chunkLoop]
    by_cases h : a.buf.length + line.length > chunkSize ∧ 0 < a.buf.length
    · rw [if_pos h]
      have hstep : chunkStep carry chunkSize docId fileName a line
          = { done := a.done ++ [createChunk a.buf docId fileName a.idx]
              buf := overlapSeed chunkOverlap a.buf ++ '\n' :: line
              idx := a.idx + 1 } := by
        simp [chunkStep, h, hcarry]
      rw [hstep, ih]
      simp
    · rw [if_neg h]
      have hstep : chunkStep carry chunkSize docId fileName a line
          = { a with buf := a.buf ++ (if 0 < a.buf.length then '\n' :: line else line) } := by
        simp [chunkStep, h]
      rw [hstep, ih]

theorem consHead_ne_nil (c : Char) (xs : List (List Char)) : consHead c xs ≠ [] := by
  cases xs <;> simp [consHead]

theorem splitOnChar_ne_nil (sep : Char) (l : List Char) : splitOnChar sep l ≠ [] := by
  cases l with
  | nil => simp [splitOnChar]
  | cons c rest =>
    simp only [splitOnChar]
    by_cases h : c = sep
    · simp [h]
    · simp only [h, if_false]
      exact consHead_ne_nil c _

theorem joinWith_consHead (sep c : Char) (xs : List (List Char)) (hxs : xs ≠ []) :
    joinWith sep (consHead c xs) = c :: joinWith sep xs := by
  match xs with
  | [] => exact absurd rfl hxs
  | [t] => simp [consHead, joinWith]
  | t :: u :: us => simp [consHead, joinWith]

theorem notMem_of_mem_splitOnChar (sep : Char) (l : List Char) :
    ∀ s ∈ splitOnChar sep l, sep ∉ s := by
  induction l with
  | nil =>
    intro s hs
    have hs' : s = [] := by simpa [splitOnChar] using hs
    simp [hs']
  | cons c rest ih =>
    intro s hs
    simp only [splitOnChar] at hs
    by_cases h : c = sep
    · rw [if_pos h] at hs
      rcases List.mem_cons.mp hs with h1 | h1
      · simp [h1]
      · exact ih s h1
    · rw [if_neg h] at hs
      obtain ⟨t, ts, hmatch⟩ : ∃ t ts, splitOnChar sep rest = t :: ts := by
        cases hm : splitOnChar sep rest with
        | nil => exact absurd hm (splitOnChar_ne_nil sep rest)
        | cons t ts => exact ⟨t, ts, rfl⟩
      rw [hmatch] at hs
      simp only [consHead] at hs
      rcases List.mem_cons.mp hs with h1 | h1
      · subst h1
        intro hmem
        rcases List.mem_cons.mp hmem with h2 | h2
        · exact h h2.symm
        · exact ih t (by rw [hmatch]; exact List.mem_cons_self t ts) h2
      · exact ih s (by rw [hmatch]; exact List.mem_cons_of_mem t h1)

theorem joinWith_splitOnChar (sep : Char) (l : List Char) :
    joinWith sep (splitOnChar sep l) = l := by
  induction l with
  | nil => simp [splitOnChar, joinWith]
  | cons c rest ih =>
    simp only [splitOnChar]
    by_cases h : c = sep
    · rw [if_pos h]
      subst h
      obtain ⟨t, ts, hmatch⟩ : ∃ t ts, splitOnChar c rest = t :: ts := by
        cases hm : splitOnChar c rest with
        | nil => exact absurd hm (splitOnChar_ne_nil c rest)
        | cons t ts => exact ⟨t, ts, rfl⟩
      rw [hmatch]
      have : joinWith c ([] :: t :: ts) = c :: joinWith c (t :: ts) := by
        simp [joinWith]
      rw [this, ← hmatch, ih]
    · rw [if_neg h]
      rw [joinWith_consHead sep c _ (splitOnChar_ne_nil sep rest), ih]

/-- Buffer accumulated by the non-closing branch of the loop over the
remaining lines. -/
def accumLines (buf : List Char) : List (List Char) → List Char
  | [] => buf
  | line :: rest => accumLines (buf ++ (if 0 < buf.length then '\n' :: line else line)) rest

theorem accumLines_of_pos (lines : List (List Char)) :
    ∀ buf : List Char, 0 < buf.length →
      accumLines buf lines = joinWith '\n' (buf :: lines) := by
  induction lines with
  | nil => intro buf _; simp [accumLines, joinWith]
  | cons line rest ih =>
    intro buf hbuf
    simp only [accumLines, if_pos hbuf]
    rw [ih (buf ++ '\n' :: line) (by simp)]
    cases rest <;> simp [joinWith]

theorem accumLines_nil_buf (lines : List (List Char)) :
    accumLines [] lines = joinWith '\n' (lines.dropWhile (fun s => decide (s = []))) := by
  induction lines with
  | nil => simp [accumLines, joinWith]
  | cons line rest ih =>
    simp only [accumLines, List.length_nil, lt_irrefl, if_false, List.nil_append,
      List.dropWhile_cons]
    by_cases h : line = []
    · subst h
      simpa using ih
    · have hpos : 0 < line.length := List.length_pos.mpr h
      rw [accumLines_of_pos rest line hpos]
      simp [h]

theorem joinWith_dropWhile_nil (lines : List (List Char))
    (hsep : ∀ s ∈ lines, '\n' ∉ s) :
    joinWith '\n' (lines.dropWhile (fun s => decide (s = [])))
      = (joinWith '\n' lines).dropWhile (fun c => decide (c = '\n')) := by
  induction lines with
  | nil => simp [joinWith]
  | cons line rest ih =>
    by_cases h : line = []
    · subst h
      have hdrop : List.dropWhile (fun s => decide (s = [])) ([] :: rest)
          = List.dropWhile (fun s => decide (s = [])) rest := by
        simp [List.dropWhile_cons]
      rw [hdrop, ih (fun s hs => hsep s (List.mem_cons_of_mem _ hs))]
      cases rest with
      | nil => simp [joinWith]
      | cons r rs => simp [joinWith, List.dropWhile_cons]
    · rcases hline : line with _ | ⟨a, as⟩
      · exact absurd hline h
      · have ha : ¬ a = '\n' := by
          intro hcontra
          exact hsep line (List.mem_cons_self _ _) (by rw [hline, hcontra]; simp)
        subst hline
        have hdrop : List.dropWhile (fun s => decide (s = [])) ((a :: as) :: rest)
            = (a :: as) :: rest := by
          simp [List.dropWhile_cons]
        rw [hdrop]
        cases rest with
        | nil => simp [joinWith, List.dropWhile_cons, ha]
        | cons r rs => simp [joinWith, List.dropWhile_cons, ha]

theorem dropWhile_dropWhile_of_imp (p q : Char → Bool) (l : List Char)
    (himp : ∀ a, q a = true → p a = true) :
    (l.dropWhile q).dropWhile p = l.dropWhile p := by
  induction l with
  | nil => simp
  | cons c rest ih =>
    by_cases hq : q c = true
    · have h1 : List.dropWhile q (c :: rest) = List.dropWhile q rest := by
        simp [List.dropWhile_cons, hq]
      have h2 : List.dropWhile p (c :: rest) = List.dropWhile p rest := by
        simp [List.dropWhile_cons, himp c hq]
      rw [h1, h2, ih]
    · have h1 : List.dropWhile q (c :: rest) = c :: rest := by
        simp [List.dropWhile_cons, hq]
      rw [h1]

theorem accumLines_length_le (lines : List (List Char)) :
    ∀ buf : List Char, buf.length ≤ (accumLines buf lines).length := by
  induction lines with
  | nil => intro buf; simp [accumLines]
  | cons line rest ih =>
    intro buf
    simp only [accumLines]
    have h1 := ih (buf ++ (if 0 < buf.length then '\n' :: line else line))
    rw [List.length_append] at h1
    omega

theorem chunkLoop_no_close (chunkSize chunkOverlap : Nat) (docId fileName : List Char) :
    ∀ (lines : List (List Char)) (buf : List Char) (i : Nat),
      (accumLines buf lines).length ≤ chunkSize →
      chunkLoop chunkSize chunkOverlap docId fileName lines buf i
        = if 0 < (accumLines buf lines).length
            then [createChunk (accumLines buf lines) docId fileName i] else [] := by
  intro lines
  induction lines with
  | nil => intro buf i _; simp [chunkLoop, accumLines]
  | cons line rest ih =>
    intro buf i h
    have hnoclose : ¬ (buf.length + line.length > chunkSize ∧ 0 < buf.length) := by
      rintro ⟨hgt, hpos⟩
      have hmono : (buf ++ '\n' :: line).length ≤ (accumLines buf (line :: rest)).length := by
        have := accumLines_length_le rest (buf ++ (if 0 < buf.length then '\n' :: line else line))
        simpa only [accumLines, if_pos hpos] using this
      rw [List.length_append, List.length_cons] at hmono
      omega
    simp only [chunkLoop, if_neg hnoclose, accumLines]
    apply ih
    simpa only [accumLines] using h

/-- C6 (amended): while iterating the lines of the input, the chunker closes
the current chunk exactly when appending the next line would make the buffer
length exceed chunkSize and the buffer is non-empty; it then starts the new
buffer with a carry-over followed by a newline and the triggering line,
where the carry-over is the last floor(chunkOverlap / 5) words of the closed
buffer (split on single spaces) joined with spaces when that count is
positive, and the WHOLE closed buffer when floor(chunkOverlap / 5) = 0 (the
JavaScript slice(-0) behaviour); after the last line a non-empty buffer is
closed as the final chunk.  Stated as: the chunker coincides with the
fold-style reference implementation of exactly that loop. -/
theorem chunkDocument_eq_spec (chunkSize chunkOverlap : Nat)
    (content docId fileName : List Char) :
    chunkDocument chunkSize chunkOverlap content docId fileName
      = chunkDocumentSpec chunkSize chunkOverlap content docId fileName := by
  unfold chunkDocumentSpec chunkFold chunkDocument
  rw [chunkLoop_eq_fold
    (fun buf => joinWith ' ' (jsSliceNeg (splitOnChar ' ' buf) (chunkOverlap / 5)))
    chunkSize chunkOverlap docId fileName (fun buf => rfl)]
  simp

/-- C6 counterexample: with chunkOverlap = 0 the claimed carry-over (the
last 0 words, i.e. nothing) disagrees with the code, which carries the whole
closed buffer because JavaScript slice(-0) returns the entire array.  On
content "aa bb\nc" with chunkSize 5 the code's second chunk is
"aa bb\nc" while the claimed loop produces "c". -/
theorem chunkDocument_overlap_zero_counterexample :
    chunkDocument 5 0 ("aa bb\nc".toList) ("d".toList) ("n".toList)
        ≠ chunkDocumentClaim 5 0 ("aa bb\nc".toList) ("d".toList) ("n".toList)
      ∧ (chunkDocument 5 0 ("aa bb\nc".toList) ("d".toList) ("n".toList)).map Chunk.content
        = ["aa bb".toList, "aa bb\nc".toList]
      ∧ (chunkDocumentClaim 5 0 ("aa bb\nc".toList) ("d".toList) ("n".toList)).map Chunk.content
        = ["aa bb".toList, "c".toList] :=
  ⟨by decide, by decide, by decide⟩

/-- C5 counterexample: the empty content has length below the default
chunkSize 600 yet the chunker returns zero chunks, not exactly one. -/
theorem chunkDocument_empty_counterexample :
    ("".toList : List Char).length < 600
      ∧ chunkDocument 600 100 ("".toList) ("d".toList) ("n".toList) = [] :=
  ⟨by decide, by decide⟩

/-- C5 (amended): for every content string shorter than chunkSize that
contains at least one character other than a newline, the chunker returns
exactly one chunk, and that chunk's stored content equals the input trimmed
of leading and trailing whitespace.  (Content consisting solely of newlines,
including the empty string, yields zero chunks.) -/
theorem chunkDocument_short_content (chunkSize chunkOverlap : Nat)
    (content docId fileName : List Char)
    (hlen : content.length < chunkSize)
    (hch : ∃ c ∈ content, c ≠ '\n') :
    ∃ ch : Chunk, chunkDocument chunkSize chunkOverlap content docId fileName = [ch]
      ∧ ch.content = trimChars content := by
  have hsep : ∀ s ∈ splitOnChar '\n' content, '\n' ∉ s :=
    notMem_of_mem_splitOnChar '\n' content
  have hacc : accumLines [] (splitOnChar '\n' content)
      = content.dropWhile (fun c => decide (c = '\n')) := by
    rw [accumLines_nil_buf, joinWith_dropWhile_nil _ hsep, joinWith_splitOnChar]
  have hle : (accumLines [] (splitOnChar '\n' content)).length ≤ chunkSize := by
    rw [hacc]
    exact le_trans (List.Sublist.length_le (List.dropWhile_sublist _)) hlen.le
  have hrun := chunkLoop_no_close chunkSize chunkOverlap docId fileName
    (splitOnChar '\n' content) [] 0 hle
  have hne : accumLines [] (splitOnChar '\n' content) ≠ [] := by
    rw [hacc]
    intro hcontra
    rw [List.dropWhile_eq_nil_iff] at hcontra
    obtain ⟨c, hc, hcne⟩ := hch
    exact hcne (by simpa using hcontra c hc)
  rw [if_pos (List.length_pos.mpr hne)] at hrun
  refine ⟨createChunk (accumLines [] (splitOnChar '\n' content)) docId fileName 0, hrun, ?_⟩
  show trimChars (accumLines [] (splitOnChar '\n' content)) = trimChars content
  rw [hacc]
  unfold trimChars
  rw [dropWhile_dropWhile_of_imp isSpaceJS (fun c => decide (c = '\n')) content]
  intro a ha
  have : a = '\n' := of_decide_eq_true ha
  subst this
  rfl

theorem chunkDocument_short_content_witness :
    (("hi".toList : List Char).length < 600 ∧ ∃ c ∈ "hi".toList, c ≠ '\n')
      ∧ ∃ ch : Chunk, chunkDocument 600 100 ("hi".toList) ("d".toList) ("n".toList) = [ch]
          ∧ ch.content = trimChars ("hi".toList) :=
  ⟨⟨by decide, by decide⟩,
    chunkDocument_short_content 600 100 ("hi".toList) ("d".toList) ("n".toList)
      (by decide) (by decide)⟩

theorem chunkLoop_map_index (chunkSize chunkOverlap : Nat) (docId fileName : List Char) :
    ∀ (lines : List (List Char)) (buf : List Char) (i : Nat),
      (chunkLoop chunkSize chunkOverlap docId fileName lines buf i).map Chunk.index
        = List.range' i (chunkLoop chunkSize chunkOverlap docId fileName lines buf i).length := by
  intro lines
  induction lines with
  | nil =>
    intro buf i
    by_cases h : 0 < buf.length <;> simp [chunkLoop, h, createChunk, List.range']
  | cons line rest ih =>
    intro buf i
    by_cases h : buf.length + line.length > chunkSize ∧ 0 < buf.length
    · simp only [chunkLoop, if_pos h, List.map_cons, List.length_cons]
      rw [ih]
      simp [createChunk, List.range']
    · simp only [chunkLoop, if_neg h]
      exact ih _ _

theorem chunkLoop_docId (chunkSize chunkOverlap : Nat) (docId fileName : List Char) :
    ∀ (lines : List (List Char)) (buf : List Char) (i : Nat),
      ∀ ch ∈ chunkLoop chunkSize chunkOverlap docId fileName lines buf i, ch.docId = docId := by
  intro lines
  induction lines with
  | nil =>
    intro buf i ch hch
    by_cases h : 0 < buf.length
    · simp only [chunkLoop, if_pos h, List.mem_singleton] at hch
      rw [hch]; rfl
    · simp [chunkLoop, if_neg h] at hch
  | cons line rest ih =>
    intro buf i ch hch
    by_cases h : buf.length + line.length > chunkSize ∧ 0 < buf.length
    · simp only [chunkLoop, if_pos h, List.mem_cons] at hch
      rcases hch with hch | hch
      · rw [hch]; rfl
      · exact ih _ _ ch hch
    · simp only [chunkLoop, if_neg h] at hch
      exact ih _ _ ch hch

theorem chunkDocument_map_index (chunkSize chunkOverlap : Nat)
    (content docId fileName : List Char) :
    (chunkDocument chunkSize chunkOverlap content docId fileName).map Chunk.index
      = List.range (chunkDocument chunkSize chunkOverlap content docId fileName).length := by
  rw [List.range_eq_range']
  exact chunkLoop_map_index chunkSize chunkOverlap docId fileName _ [] 0

theorem chunkDocument_docId (chunkSize chunkOverlap : Nat)
    (content docId fileName : List Char) :
    ∀ ch ∈ chunkDocument chunkSize chunkOverlap content docId fileName, ch.docId = docId :=
  chunkLoop_docId chunkSize chunkOverlap docId fileName _ [] 0

/-- Document record as built by `addDocument` (the creation timestamp, a
wall-clock side effect, is not modelled). -/
structure Document where
  id : List Char
  name : List Char
  content : List Char
  chunkCount : Nat
  chatId : List Char
deriving DecidableEq

/-- In-memory state of the `RAGEngine` class: the document map (modelled as
an insertion-ordered association list keyed by `id`), the chunk array and
the chunking configuration. -/
structure RAGEngine where
  documents : List Document
  chunks : List Chunk
  chunkSize : Nat
  chunkOverlap : Nat
deriving DecidableEq

/-- Engine state produced by the constructor: empty maps, chunkSize 600 and
chunkOverlap 100. -/
def RAGEngine.init : RAGEngine :=
  { documents := [], chunks := [], chunkSize := 600, chunkOverlap := 100 }

/-- JavaScript `Map.prototype.set`: replace the entry carrying the same key
in place, otherwise append at the end. -/
def mapSet : List Document → Document → List Document
  | [], d => [d]
  | x :: xs, d => if x.id = d.id then d :: xs else x :: mapSet xs d

/-- Method `updateConfig(chunkSize, chunkOverlap)`. -/
def updateConfig (s : RAGEngine) (chunkSize chunkOverlap : Nat) : RAGEngine :=
  { s with chunkSize := chunkSize, chunkOverlap := chunkOverlap }

/-- Outcome of the awaited external store calls of an operation. -/
inductive StoreOutcome where
  | ok : StoreOutcome
  | fail : List Char → StoreOutcome

/-- Result object returned by `addDocument`. -/
structure AddResult where
  success : Bool
  resultDocId : Option (List Char)
  resultChunkCount : Option Nat
  error : Option (List Char)
deriving DecidableEq

/-- Method `addDocument(fileName, content, chatId)`.  The fresh identifier
produced by `generateDocId` (wall clock plus randomness) is passed in as
`docId`.  The document and its chunks are inserted into the in-memory state
BEFORE the store is awaited; a store rejection is caught and surfaced as a
failure result, without rolling the in-memory state back. -/
def addDocument (s : RAGEngine) (fileName content chatId docId : List Char)
    (store : StoreOutcome) : AddResult × RAGEngine :=
  let chunks := chunkDocument s.chunkSize s.chunkOverlap content docId fileName
  let doc : Document :=
    { id := docId, name := fileName, content := content,
      chunkCount := chunks.length, chatId := chatId }
  let s' : RAGEngine := { s with documents := mapSet s.documents doc,
                                 chunks := s.chunks ++ chunks }
  match store with
  | .ok => ({ success := true, resultDocId := some docId,
              resultChunkCount := some chunks.length, error := none }, s')
  | .fail msg => ({ success := false, resultDocId := none,
                    resultChunkCount := none, error := some msg }, s')

/-- Result object returned by `removeDocument`. -/
structure RemoveResult where
  success : Bool
  error : Option (List Char)
deriving DecidableEq

/-- Method `removeDocument(docId)`: chunks with a matching `docId` are
filtered out and the document entry deleted, before the store is awaited. -/
def removeDocument (s : RAGEngine) (docId : List Char) (store : StoreOutcome) :
    RemoveResult × RAGEngine :=
  let s' : RAGEngine := { s with
    chunks := s.chunks.filter (fun c => c.docId ≠ docId),
    documents := s.documents.filter (fun d => d.id ≠ docId) }
  match store with
  | .ok => ({ success := true, error := none }, s')
  | .fail msg => ({ success := false, error := some msg }, s')

/-- Method `getStats()`: the returned JavaScript object literal is modelled
as its ordered key/value list.  The third key the code produces is
`totalSize`, holding the summed character counts of the stored documents. -/
def getStats (s : RAGEngine) : List (List Char × Nat) :=
  [("documentCount".toList, s.documents.length),
   ("chunkCount".toList, s.chunks.length),
   ("totalSize".toList, (s.documents.map (fun d => d.content.length)).sum)]

/-- Chunks currently stored for a given document identifier. -/
def ChunksOf (s : RAGEngine) (docId : List Char) : List Chunk :=
  s.chunks.filter (fun c => c.docId = docId)

theorem ChunksOf_mk (docs : List Document) (chs : List Chunk) (a b : Nat) (i : List Char) :
    ChunksOf { documents := docs, chunks := chs, chunkSize := a, chunkOverlap := b } i
      = chs.filter (fun c => c.docId = i) := rfl

/-- Index invariant: every chunk references a live document, each document's
chunks carry contiguous ordinals 0..N-1 in storage order, and each
document's chunkCount equals its number of stored chunks. -/
def Invariant (s : RAGEngine) : Prop :=
  (∀ c ∈ s.chunks, ∃ d ∈ s.documents, d.id = c.docId) ∧
  (∀ d ∈ s.documents,
    (ChunksOf s d.id).map Chunk.index = List.range (ChunksOf s d.id).length ∧
    d.chunkCount = (ChunksOf s d.id).length)

/-- States reachable from the fresh engine by adding documents (with fresh
identifiers), removing documents, and reconfiguring chunk sizes, with any
store outcome. -/
inductive Reachable : RAGEngine → Prop where
  | init : Reachable RAGEngine.init
  | add (s : RAGEngine) (fileName content chatId docId : List Char) (store : StoreOutcome)
      (hs : Reachable s) (hfresh : ∀ d ∈ s.documents, d.id ≠ docId) :
      Reachable (addDocument s fileName content chatId docId store).2
  | remove (s : RAGEngine) (docId : List Char) (store : StoreOutcome) (hs : Reachable s) :
      Reachable (removeDocument s docId store).2
  | config (s : RAGEngine) (a b : Nat) (hs : Reachable s) :
      Reachable (updateConfig s a b)

theorem mapSet_of_fresh (ds : List Document) (doc : Document)
    (h : ∀ d ∈ ds, d.id ≠ doc.id) : mapSet ds doc = ds ++ [doc] := by
  induction ds with
  | nil => rfl
  | cons x xs ih =>
    simp only [mapSet]
    rw [if_neg (h x (List.mem_cons_self x xs))]
    rw [ih (fun d hd => h d (List.mem_cons_of_mem x hd))]
    rfl

theorem mem_mapSet_self (ds : List Document) (doc : Document) : doc ∈ mapSet ds doc := by
  induction ds with
  | nil => exact List.mem_singleton.mpr rfl
  | cons x xs ih =>
    simp only [mapSet]
    by_cases h : x.id = doc.id
    · rw [if_pos h]; exact List.mem_cons_self doc xs
    · rw [if_neg h]; exact List.mem_cons_of_mem x ih

theorem addDocument_snd (s : RAGEngine) (fileName content chatId docId : List Char)
    (store : StoreOutcome) :
    (addDocument s fileName content chatId docId store).2
      = { s with
          documents := mapSet s.documents
            { id := docId, name := fileName, content := content,
              chunkCount := (chunkDocument s.chunkSize s.chunkOverlap content docId fileName).length,
              chatId := chatId },
          chunks := s.chunks ++ chunkDocument s.chunkSize s.chunkOverlap content docId fileName } := by
  cases store <;> rfl

theorem removeDocument_snd (s : RAGEngine) (docId : List Char) (store : StoreOutcome) :
    (removeDocument s docId store).2
      = { s with
          chunks := s.chunks.filter (fun c => c.docId ≠ docId),
          documents := s.documents.filter (fun d => d.id ≠ docId) } := by
  cases store <;> rfl

/-- C4: in every state reachable from the empty index by addDocument and
removeDocument (and configuration changes), every stored chunk's docId
references a live document, each document's chunks carry contiguous
ordinals 0..N-1, and each document's chunkCount equals the number of chunks
currently stored for it. -/
theorem reachable_invariant (s : RAGEngine) (h : Reachable s) : Invariant s := by
  induction h with
  | init =>
    constructor
    · intro c hc; simp [RAGEngine.init] at hc
    · intro d hd; simp [RAGEngine.init] at hd
  | add s fileName content chatId docId store hs hfresh ih =>
    rw [addDocument_snd]
    obtain ⟨ih1, ih2⟩ := ih
    have hnew := chunkDocument_docId s.chunkSize s.chunkOverlap content docId fileName
    have hfresh' : mapSet s.documents
        { id := docId, name := fileName, content := content,
          chunkCount := (chunkDocument s.chunkSize s.chunkOverlap content docId fileName).length,
          chatId := chatId }
        = s.documents ++
          [{ id := docId, name := fileName, content := content,
             chunkCount := (chunkDocument s.chunkSize s.chunkOverlap content docId fileName).length,
             chatId := chatId }] :=
      mapSet_of_fresh _ _ (fun d hd => hfresh d hd)
    rw [hfresh']
    have hold : ∀ ch ∈ s.chunks, ch.docId ≠ docId := by
      intro ch hch hcontra
      obtain ⟨d, hd, hid⟩ := ih1 ch hch
      exact hfresh d hd (hid.trans hcontra)
    constructor
    · intro c hc
      rcases List.mem_append.mp hc with hc | hc
      · obtain ⟨d, hd, hid⟩ := ih1 c hc
        exact ⟨d, List.mem_append.mpr (Or.inl hd), hid⟩
      · refine ⟨_, List.mem_append.mpr (Or.inr (List.mem_singleton.mpr rfl)), ?_⟩
        exact (hnew c hc).symm
    · intro d hd
      simp only [ChunksOf_mk, List.filter_append]
      rcases List.mem_append.mp hd with hd | hd
      · have hdid : d.id ≠ docId := hfresh d hd
        have hnil : (chunkDocument s.chunkSize s.chunkOverlap content docId fileName).filter
            (fun c => c.docId = d.id) = [] := by
          apply List.filter_eq_nil_iff.mpr
          intro ch hch
          rw [hnew ch hch]
          simpa using fun hcontra => hdid hcontra.symm
        rw [hnil, List.append_nil]
        exact ih2 d hd
      · rw [List.mem_singleton.mp hd]
        have hnil : (s.chunks.filter (fun c => c.docId = docId)) = [] := by
          apply List.filter_eq_nil_iff.mpr
          intro ch hch
          simpa using hold ch hch
        have hall : (chunkDocument s.chunkSize s.chunkOverlap content docId fileName).filter
            (fun c => c.docId = docId)
            = chunkDocument s.chunkSize s.chunkOverlap content docId fileName := by
          apply List.filter_eq_self.mpr
          intro ch hch
          simpa using hnew ch hch
        simp only [hnil, hall, List.nil_append]
        exact ⟨chunkDocument_map_index s.chunkSize s.chunkOverlap content docId fileName,
          by trivial⟩
  | remove s docId store hs ih =>
    rw [removeDocument_snd]
    obtain ⟨ih1, ih2⟩ := ih
    constructor
    · intro c hc
      rw [List.mem_filter] at hc
      obtain ⟨hcmem, hcne'⟩ := hc
      have hcne : c.docId ≠ docId := by simpa using hcne'
      obtain ⟨d, hd, hid⟩ := ih1 c hcmem
      refine ⟨d, List.mem_filter.mpr ⟨hd, ?_⟩, hid⟩
      have : d.id ≠ docId := fun hcontra => hcne (hid.symm.trans hcontra)
      simpa using this
    · intro d hd
      rw [List.mem_filter] at hd
      obtain ⟨hdmem, hdne⟩ := hd
      have hdne' : d.id ≠ docId := by simpa using hdne
      have hfilter : (s.chunks.filter (fun c => decide (c.docId ≠ docId))).filter
          (fun c => c.docId = d.id) = ChunksOf s d.id := by
        rw [List.filter_filter]
        apply List.filter_congr
        intro ch _
        by_cases hch : ch.docId = d.id
        · simp [hch, hdne']
        · simp [hch]
      simp only [ChunksOf_mk]
      rw [hfilter]
      exact ih2 d hdmem
  | config s a b hs ih =>
    obtain ⟨ih1, ih2⟩ := ih
    exact ⟨ih1, ih2⟩

theorem reachable_invariant_witness :
    Invariant (addDocument RAGEngine.init ("doc1".toList) ("alpha beta".toList)
      ("global".toList) ("doc_1".toList) StoreOutcome.ok).2 :=
  reachable_invariant _
    (Reachable.add RAGEngine.init _ _ _ _ _ Reachable.init (by simp [RAGEngine.init]))

/-- C10: document ingestion is not atomic with respect to store failure:
addDocument inserts the document and appends its chunks into the in-memory
index before awaiting the external store, so when the store rejects,
addDocument returns a failure result while the document and all its chunks
remain in the in-memory index — the chunk array later scored by
retrieveRelevantChunks — and are counted by getStats. -/
theorem addDocument_store_failure_keeps_memory (s : RAGEngine)
    (fileName content chatId docId msg : List Char) :
    (addDocument s fileName content chatId docId (StoreOutcome.fail msg)).1.success = false
    ∧ (addDocument s fileName content chatId docId (StoreOutcome.fail msg)).1.error = some msg
    ∧ (addDocument s fileName content chatId docId (StoreOutcome.fail msg)).2.chunks
        = s.chunks ++ chunkDocument s.chunkSize s.chunkOverlap content docId fileName
    ∧ (∃ d ∈ (addDocument s fileName content chatId docId (StoreOutcome.fail msg)).2.documents,
        d.id = docId ∧ d.name = fileName ∧ d.content = content)
    ∧ (getStats (addDocument s fileName content chatId docId (StoreOutcome.fail msg)).2).lookup
          ("chunkCount".toList)
        = some (s.chunks.length
            + (chunkDocument s.chunkSize s.chunkOverlap content docId fileName).length) := by
  refine ⟨rfl, rfl, rfl, ⟨_, mem_mapSet_self _ _, rfl, rfl, rfl⟩, ?_⟩
  show List.lookup _ _ = _
  have hne : (("chunkCount".toList == "documentCount".toList) = false) := by decide
  have heq : (("chunkCount".toList == "chunkCount".toList) = true) := by decide
  simp only [getStats, List.lookup, hne, heq]
  rw [addDocument_snd]
  simp [List.length_append]

/-- Engine state holding one document whose content is "hello" and no
chunks, used to evaluate getStats. -/
def statsExample : RAGEngine :=
  { documents := [{ id := "doc_1".toList, name := "doc1".toList,
                    content := "hello".toList, chunkCount := 0,
                    chatId := "global".toList }],
    chunks := [], chunkSize := 600, chunkOverlap := 100 }

/-- C2: the record returned by getStats has the keys documentCount,
chunkCount and totalSize — there is no totalChars field, even though the
caller updateStats in app.js reads stats.totalChars.  Evaluated on a state
holding one document with content "hello": the key list is
[documentCount, chunkCount, totalSize], looking up totalChars finds
nothing, and totalSize holds the aggregated character count 5. -/
theorem getStats_totalSize_key :
    (getStats statsExample).map Prod.fst
        = ["documentCount".toList, "chunkCount".toList, "totalSize".toList]
      ∧ (getStats statsExample).lookup ("totalChars".toList) = none
      ∧ (getStats statsExample).lookup ("totalSize".toList) = some 5 :=
  ⟨by decide, by decide, by decide⟩

/-- Result record produced per retrieved chunk. -/
structure RetrievalResult where
  content : List Char
  docName : List Char
  score : ℝ
  chunkId : List Char

/-- Pair of a chunk and its score, as built inside retrieveRelevantChunks. -/
structure Scored where
  chunk : Chunk
  score : ℝ

/-- Projection to the returned result object. -/
def toResult (x : Scored) : RetrievalResult :=
  { content := x.chunk.content, docName := x.chunk.docName,
    score := x.score, chunkId := x.chunk.id }

/-- Contribution of one query token to the accumulated score: zero when the
token is absent from the chunk's token set, otherwise the term frequency of
the token within the chunk times the log inverse document frequency over
the corpus, with the +1 smoothing in the denominator only. -/
noncomputable def tokenContribution (corpus : List Chunk) (chunkTokens : List (List Char))
    (token : List Char) : ℝ :=
  if token ∈ chunkTokens then
    ((chunkTokens.count token : ℝ) / (chunkTokens.length : ℝ))
      * Real.log ((corpus.length : ℝ)
          / (((corpus.filter (fun c => token ∈ c.tokens)).length : ℝ) + 1))
  else 0

/-- Method `calculateRelevanceScore(queryTokens, chunkTokens)`: zero when
either side is empty, otherwise the sum of the per-query-token
contributions (iterating the raw query token sequence) normalised by the
square root of the query length. -/
noncomputable def calculateRelevanceScore (corpus : List Chunk)
    (queryTokens chunkTokens : List (List Char)) : ℝ :=
  if queryTokens.length = 0 ∨ chunkTokens.length = 0 then 0
  else ((queryTokens.map (tokenContribution corpus chunkTokens)).sum)
        / Real.sqrt (queryTokens.length)

/-- Comparator `(a, b) => b.score - a.score` of the JavaScript stable sort,
as the Boolean relation saying that `a` may precede `b`. -/
noncomputable def scoreLE (a b : Scored) : Bool :=
  decide (b.score ≤ a.score)

/-- Method `retrieveRelevantChunks(query, topK)`: empty corpus yields [];
otherwise score every chunk, sort stably descending (Array.prototype.sort
is stable), slice the first topK, keep strictly positive scores, project. -/
noncomputable def retrieveRelevantChunks (s : RAGEngine) (query : List Char) (topK : Nat) :
    List RetrievalResult :=
  if s.chunks.length = 0 then []
  else
    ((((s.chunks.map (fun c =>
        Scored.mk c (calculateRelevanceScore s.chunks (tokenize query) c.tokens))).mergeSort
          scoreLE).take topK).filter (fun x => decide (0 < x.score))).map toResult

/-- Modelled from the spec: score every stored chunk against the full
corpus, sort descending by score with the same stable sort, FILTER OUT
non-positive scores, then truncate to topK. -/
noncomputable def retrieveRelevantChunksSpec (s : RAGEngine) (query : List Char) (topK : Nat) :
    List RetrievalResult :=
  if s.chunks.length = 0 then []
  else
    ((((s.chunks.map (fun c =>
        Scored.mk c (calculateRelevanceScore s.chunks (tokenize query) c.tokens))).mergeSort
          scoreLE).filter (fun x => decide (0 < x.score))).take topK).map toResult

theorem take_filter_comm_of_sorted :
    ∀ l : List Scored, l.Pairwise (fun a b => scoreLE a b = true) → ∀ k : Nat,
      (l.take k).filter (fun x => decide (0 < x.score))
        = (l.filter (fun x => decide (0 < x.score))).take k := by
  intro l
  induction l with
  | nil => intro _ k; simp
  | cons a t ih =>
    intro hp k
    rw [List.pairwise_cons] at hp
    obtain ⟨ha, ht⟩ := hp
    cases k with
    | zero => simp
    | succ k =>
      rw [List.take_succ_cons, List.filter_cons, List.filter_cons]
      by_cases hpos : 0 < a.score
      · rw [if_pos (decide_eq_true hpos), if_pos (decide_eq_true hpos)]
        rw [List.take_succ_cons, ih ht k]
      · have hneg : ∀ b ∈ t, ¬ 0 < b.score := by
          intro b hb hb0
          exact hpos (lt_of_lt_of_le hb0 (of_decide_eq_true (ha b hb)))
        rw [if_neg (by simpa using hpos), if_neg (by simpa using hpos)]
        have h1 : (t.take k).filter (fun x => decide (0 < x.score)) = [] :=
          List.filter_eq_nil_iff.mpr
            (fun b hb => by simpa using hneg b (List.take_subset k t hb))
        have h2 : t.filter (fun x => decide (0 < x.score)) = [] :=
          List.filter_eq_nil_iff.mpr (fun b hb => by simpa using hneg b hb)
        rw [h1, h2]
        simp

theorem scoreLE_trans : ∀ a b c : Scored,
    scoreLE a b = true → scoreLE b c = true → scoreLE a c = true := by
  intro a b c hab hbc
  have h1 : b.score ≤ a.score := of_decide_eq_true hab
  have h2 : c.score ≤ b.score := of_decide_eq_true hbc
  exact decide_eq_true (le_trans h2 h1)

theorem scoreLE_total : ∀ a b : Scored, (scoreLE a b || scoreLE b a) = true := by
  intro a b
  simp only [scoreLE, Bool.or_eq_true, decide_eq_true_eq]
  exact le_total b.score a.score

/-- C1: retrieveRelevantChunks returns the scored chunks sorted descending
by score (ties in storage order via the stable sort), with non-positive
scores excluded, truncated to topK: the code's slice-then-filter pipeline
coincides with the spec's filter-then-truncate pipeline on every state,
query and topK, because the list is sorted descending when sliced — so in
particular every positive-scoring chunk ranking within the first topK
positions after the exclusion is included. -/
theorem retrieveRelevantChunks_eq_spec (s : RAGEngine) (query : List Char) (topK : Nat) :
    retrieveRelevantChunks s query topK = retrieveRelevantChunksSpec s query topK := by
  unfold retrieveRelevantChunks retrieveRelevantChunksSpec
  by_cases h : s.chunks.length = 0
  · rw [if_pos h, if_pos h]
  · rw [if_neg h, if_neg h]
    congr 1
    exact take_filter_comm_of_sorted _
      (List.sorted_mergeSort scoreLE_trans scoreLE_total _) topK

/-- C9: the tokenizer equals the reference pipeline — lower-case the input,
replace every character that is not a word character or whitespace with a
space, split on runs of whitespace, drop tokens of length at most two, then
drop stop words — with output order matching input order and duplicates
retained; in particular tokenize "" is the empty sequence and
tokenize "The Cat sat." excludes "the" and keeps "cat" and "sat". -/
theorem tokenize_eq_spec :
    (∀ text : List Char, tokenize text = tokenizeSpec text)
    ∧ tokenize [] = []
    ∧ tokenize ("The Cat sat.".toList) = ["cat".toList, "sat".toList] := by
  refine ⟨?_, by decide, by decide⟩
  intro text
  unfold tokenize tokenizeSpec
  rw [filter_len_splitWsJS]

/-- C7: with a corpus of exactly one chunk containing a given query token
exactly once, scoring the single-token query of that token against that
chunk yields tf times idf = ln(1/2) < 0: a strictly negative score,
returned with its sign preserved (no clamping at zero). -/
theorem calculateRelevanceScore_negative (c : Chunk) (t : List Char)
    (hcount : c.tokens.count t = 1) :
    calculateRelevanceScore [c] [t] c.tokens
        = (1 / (c.tokens.length : ℝ)) * Real.log (1 / 2)
      ∧ calculateRelevanceScore [c] [t] c.tokens < 0 := by
  have hmem : t ∈ c.tokens := List.count_pos_iff.mp (by omega)
  have hlenpos : 0 < c.tokens.length := List.length_pos.mpr (List.ne_nil_of_mem hmem)
  have heval : calculateRelevanceScore [c] [t] c.tokens
      = (1 / (c.tokens.length : ℝ)) * Real.log (1 / 2) := by
    unfold calculateRelevanceScore
    have hguard : ¬(([t] : List (List Char)).length = 0 ∨ c.tokens.length = 0) := by
      rintro (h1 | h1)
      · simp at h1
      · omega
    rw [if_neg hguard]
    simp only [List.map_cons, List.map_nil, List.sum_cons, List.sum_nil]
    unfold tokenContribution
    rw [if_pos hmem, hcount]
    have hfilter : ([c].filter (fun ch => t ∈ ch.tokens)) = [c] := by
      rw [List.filter_eq_self]
      intro ch hch
      rw [List.mem_singleton.mp hch]
      exact decide_eq_true hmem
    rw [hfilter]
    simp [Real.sqrt_one]
    norm_num
  refine ⟨heval, ?_⟩
  rw [heval]
  apply mul_neg_of_pos_of_neg
  · apply one_div_pos.mpr
    exact_mod_cast hlenpos
  · exact Real.log_neg (by norm_num) (by norm_num)

/-- Chunk used as a concrete witness corpus for the scoring claims. -/
def negChunk : Chunk :=
  { id := "c_chunk_0".toList, docId := "c".toList, docName := "c".toList,
    content := "cat".toList, index := 0, tokens := ["cat".toList] }

theorem calculateRelevanceScore_negative_witness :
    negChunk.tokens.count ("cat".toList) = 1
    ∧ (calculateRelevanceScore [negChunk] ["cat".toList] negChunk.tokens
          = (1 / (negChunk.tokens.length : ℝ)) * Real.log (1 / 2)
        ∧ calculateRelevanceScore [negChunk] ["cat".toList] negChunk.tokens < 0) :=
  ⟨by decide, calculateRelevanceScore_negative negChunk ("cat".toList) (by decide)⟩

theorem count_lawful_eq {α : Type} (inst1 inst2 : BEq α)
    [@LawfulBEq α inst1] [@LawfulBEq α inst2] (m : α) (l : List α) :
    @List.count α inst1 m l = @List.count α inst2 m l := by
  induction l with
  | nil => rfl
  | cons a t ih =>
    rw [@List.count_cons α inst1, @List.count_cons α inst2, ih]
    by_cases h : a = m
    · simp [h]
    · simp [h]

/-- C8: the accumulation loop iterates the raw query token sequence, not
the deduplicated set: the pre-normalisation total is the sum, over the
distinct query tokens, of the token's multiplicity in the query times its
tf*idf contribution, so a token occurring k times contributes k times its
tf*idf value before the division by sqrt of the query length. -/
theorem calculateRelevanceScore_duplicate_tokens (corpus : List Chunk)
    (queryTokens chunkTokens : List (List Char))
    (hq : queryTokens ≠ []) (hc : chunkTokens ≠ []) :
    calculateRelevanceScore corpus queryTokens chunkTokens
      = (∑ m ∈ queryTokens.toFinset,
          (queryTokens.count m : ℝ) * tokenContribution corpus chunkTokens m)
        / Real.sqrt (queryTokens.length) := by
  unfold calculateRelevanceScore
  rw [if_neg (by simp [List.length_eq_zero, hq, hc])]
  congr 1
  rw [Finset.sum_list_map_count]
  apply Finset.sum_congr rfl
  intro m _
  rw [nsmul_eq_mul]
  congr 1
  exact congrArg Nat.cast (count_lawful_eq instBEqOfDecidableEq List.instBEq m queryTokens)

theorem calculateRelevanceScore_duplicate_tokens_witness :
    (["cat".toList, "cat".toList] ≠ ([] : List (List Char))
      ∧ ["cat".toList] ≠ ([] : List (List Char)))
    ∧ calculateRelevanceScore [negChunk] ["cat".toList, "cat".toList] ["cat".toList]
        = (∑ m ∈ (["cat".toList, "cat".toList] : List (List Char)).toFinset,
            ((["cat".toList, "cat".toList] : List (List Char)).count m : ℝ)
              * tokenContribution [negChunk] ["cat".toList] m)
          / Real.sqrt ((["cat".toList, "cat".toList] : List (List Char)).length) :=
  ⟨⟨by decide, by decide⟩,
    calculateRelevanceScore_duplicate_tokens [negChunk] _ _ (by decide) (by decide)⟩

/-- Chunk of a document scoped to conversation chat_A, carrying the token
"alpha". -/
def chunkAlpha : Chunk :=
  { id := "dA_chunk_0".toList, docId := "dA".toList, docName := "docA".toList,
    content := "alpha".toList, index := 0, tokens := ["alpha".toList] }

/-- First chunk of the globally scoped document. -/
def chunkBeta : Chunk :=
  { id := "dG_chunk_0".toList, docId := "dG".toList, docName := "docG".toList,
    content := "beta".toList, index := 0, tokens := ["beta".toList] }

/-- Second chunk of the globally scoped document. -/
def chunkGamma : Chunk :=
  { id := "dG_chunk_1".toList, docId := "dG".toList, docName := "docG".toList,
    content := "gamma".toList, index := 1, tokens := ["gamma".toList] }

/-- Document scoped to the conversation chat_A. -/
def docA : Document :=
  { id := "dA".toList, name := "docA".toList, content := "alpha".toList,
    chunkCount := 1, chatId := "chat_A".toList }

/-- Globally scoped document. -/
def docG : Document :=
  { id := "dG".toList, name := "docG".toList, content := "beta\ngamma".toList,
    chunkCount := 2, chatId := "global".toList }

/-- Engine state holding one chat_A-scoped document and one global
document. -/
def scopeExample : RAGEngine :=
  { documents := [docA, docG], chunks := [chunkAlpha, chunkBeta, chunkGamma],
    chunkSize := 600, chunkOverlap := 100 }

theorem scoreAlpha :
    calculateRelevanceScore scopeExample.chunks ["alpha".toList] chunkAlpha.tokens
      = Real.log (3 / 2) := by
  unfold calculateRelevanceScore
  rw [if_neg (by decide)]
  simp only [List.map_cons, List.map_nil, List.sum_cons, List.sum_nil]
  unfold tokenContribution
  rw [if_pos (by decide : ("alpha".toList : List Char) ∈ chunkAlpha.tokens)]
  rw [show scopeExample.chunks.filter (fun c => ("alpha".toList : List Char) ∈ c.tokens)
      = [chunkAlpha] by decide]
  rw [show chunkAlpha.tokens.count ("alpha".toList) = 1 by decide]
  rw [show chunkAlpha.tokens.length = 1 by decide]
  rw [show scopeExample.chunks.length = 3 by decide]
  simp [Real.sqrt_one]
  norm_num

theorem scoreBeta :
    calculateRelevanceScore scopeExample.chunks ["alpha".toList] chunkBeta.tokens = 0 := by
  unfold calculateRelevanceScore
  rw [if_neg (by decide)]
  simp only [List.map_cons, List.map_nil, List.sum_cons, List.sum_nil]
  unfold tokenContribution
  rw [if_neg (by decide : ¬ ("alpha".toList : List Char) ∈ chunkBeta.tokens)]
  simp

theorem scoreGamma :
    calculateRelevanceScore scopeExample.chunks ["alpha".toList] chunkGamma.tokens = 0 := by
  unfold calculateRelevanceScore
  rw [if_neg (by decide)]
  simp only [List.map_cons, List.map_nil, List.sum_cons, List.sum_nil]
  unfold tokenContribution
  rw [if_neg (by decide : ¬ ("alpha".toList : List Char) ∈ chunkGamma.tokens)]
  simp

/-- C3: scoping is not enforced by retrieval.  The state scopeExample holds
a document scoped to conversation chat_A whose chunk carries the token
"alpha"; retrieveRelevantChunks takes no conversation identifier and
applies no scope filter (handleSendMessage calls it with only the message
and topK), so a retrieval performed on behalf of any other conversation —
for instance chat_B — returns that chat_A-scoped chunk. -/
theorem scoped_chunk_leaks_across_conversations :
    (∃ d ∈ scopeExample.documents, d.id = chunkAlpha.docId ∧ d.chatId = "chat_A".toList)
    ∧ ("chat_A".toList : List Char) ≠ "chat_B".toList
    ∧ retrieveRelevantChunks scopeExample ("alpha".toList) 3
        = [{ content := "alpha".toList, docName := "docA".toList,
             score := Real.log (3 / 2), chunkId := "dA_chunk_0".toList }] := by
  refine ⟨⟨docA, by decide, by decide, by decide⟩, by decide, ?_⟩
  unfold retrieveRelevantChunks
  rw [if_neg (by decide)]
  rw [show tokenize ("alpha".toList) = ["alpha".toList] by decide]
  have hmap : scopeExample.chunks.map (fun c =>
        Scored.mk c (calculateRelevanceScore scopeExample.chunks ["alpha".toList] c.tokens))
      = [Scored.mk chunkAlpha (Real.log (3 / 2)), Scored.mk chunkBeta 0,
         Scored.mk chunkGamma 0] := by
    show [Scored.mk chunkAlpha
            (calculateRelevanceScore scopeExample.chunks ["alpha".toList] chunkAlpha.tokens),
          Scored.mk chunkBeta
            (calculateRelevanceScore scopeExample.chunks ["alpha".toList] chunkBeta.tokens),
          Scored.mk chunkGamma
            (calculateRelevanceScore scopeExample.chunks ["alpha".toList] chunkGamma.tokens)]
        = _
    rw [scoreAlpha, scoreBeta, scoreGamma]
  rw [hmap]
  rw [take_filter_comm_of_sorted _
    (List.sorted_mergeSort scoreLE_trans scoreLE_total _) 3]
  have hlogpos : (0 : ℝ) < Real.log (3 / 2) := Real.log_pos (by norm_num)
  have hfL : ([Scored.mk chunkAlpha (Real.log (3 / 2)), Scored.mk chunkBeta 0,
        Scored.mk chunkGamma 0]).filter (fun x => decide (0 < x.score))
      = [Scored.mk chunkAlpha (Real.log (3 / 2))] := by
    rw [List.filter_cons, List.filter_cons, List.filter_cons]
    rw [if_pos (decide_eq_true hlogpos)]
    rw [if_neg (by simp), if_neg (by simp)]
    rfl
  have hperm : List.Perm
      ((List.mergeSort [Scored.mk chunkAlpha (Real.log (3 / 2)),
        Scored.mk chunkBeta 0, Scored.mk chunkGamma 0] scoreLE).filter
          (fun x => decide (0 < x.score)))
      [Scored.mk chunkAlpha (Real.log (3 / 2))] := by
    rw [← hfL]
    exact (List.mergeSort_perm _ scoreLE).filter _
  rw [hperm.eq_singleton]
  rfl

end RAG
